import Mathlib

/-!
Verification of the scanning engine of scan-the-code-for-chinese
(src/src-tauri/src/lib.rs), shallowly embedded in Lean.

Source text is modelled at the UTF-8 byte level (`List Nat`), since the
Rust code computes all offsets and columns in bytes.  Decoded literal
values are modelled as `List Char` (Rust `&str` as a sequence of code
points), with byte offsets derived from UTF-8 lengths.
-/

/-- UTF-8 encoding of a single code point (standard, used to relate
`List Char` values to the byte level). -/
def charUtf8 (c : Char) : List Nat :=
  let n := c.toNat
  if n < 0x80 then [n]
  else if n < 0x800 then [0xC0 + n / 0x40, 0x80 + n % 0x40]
  else if n < 0x10000 then
    [0xE0 + n / 0x1000, 0x80 + n / 0x40 % 0x40, 0x80 + n % 0x40]
  else
    [0xF0 + n / 0x40000, 0x80 + n / 0x1000 % 0x40, 0x80 + n / 0x40 % 0x40,
     0x80 + n % 0x40]

/-- UTF-8 byte length of a code point. -/
def utf8Len (c : Char) : Nat := (charUtf8 c).length

/-- UTF-8 bytes of a string (used to build concrete source files). -/
def utf8Encode (s : String) : List Nat := s.data.flatMap charUtf8

/-- The fixed script range of the scanner: the regex `[一-龥]`
(lib.rs line 110) matches exactly the code points 0x4e00..0x9fa5. -/
def isChineseChar (c : Char) : Bool := 0x4e00 ≤ c.toNat && c.toNat ≤ 0x9fa5

/-- Model of `chinese_regex.find(value)` on a decoded value: the byte
offset (`Match::start`, a UTF-8 byte index) of the first code point in
the range, or `none`. -/
def chineseFind : List Char → Option Nat
  | [] => none
  | c :: cs =>
    if isChineseChar c then some 0
    else (chineseFind cs).map (fun k => utf8Len c + k)

/-- The character (code-point) index of the first matching code point.
This follows the SPEC's words in claim C2 ("the first match's character
offset within the decoded value"); the code itself works with byte
offsets. -/
def chineseFindCharIdx : List Char → Option Nat
  | [] => none
  | c :: cs =>
    if isChineseChar c then some 0
    else (chineseFindCharIdx cs).map (fun k => 1 + k)

/-- Rust `char::is_whitespace` (the Unicode White_Space property), used
by `str::trim` in `visit_jsx_text`. -/
def rustIsWhitespace (c : Char) : Bool :=
  let n := c.toNat
  (0x09 ≤ n && n ≤ 0x0D) || n = 0x20 || n = 0x85 || n = 0xA0 || n = 0x1680 ||
  (0x2000 ≤ n && n ≤ 0x200A) || n = 0x2028 || n = 0x2029 || n = 0x202F ||
  n = 0x205F || n = 0x3000

/-- Rust `str::trim`: drop Unicode whitespace from both ends. -/
def rustTrim (v : List Char) : List Char :=
  ((v.dropWhile rustIsWhitespace).reverse.dropWhile rustIsWhitespace).reverse

/-! ## Rust `str::lines` at the byte level

`get_line_col` iterates `source_text.lines()`.  Rust `lines()` splits at
`\n` (byte 10) and strips one trailing `\r` (byte 13) from a segment only
when a `\n` was split off after it; the final segment, when empty (text
ended with `\n`), is not produced. -/

/-- Split a byte sequence at every byte 10; always returns at least one
(possibly empty) segment, like Rust `split('\n')`. -/
def splitNl : List Nat → List (List Nat)
  | [] => [[]]
  | b :: bs =>
    if b = 10 then [] :: splitNl bs
    else
      match splitNl bs with
      | [] => [[b]]
      | l :: ls => (b :: l) :: ls

/-- Strip one trailing byte 13 (`\r`), as Rust `lines()` does on each
newline-terminated segment. -/
def stripCR (l : List Nat) : List Nat :=
  match l.reverse with
  | 13 :: rest => rest.reverse
  | _ => l

/-- Apply `stripCR` to every segment but the last, and drop the last
segment when it is empty (i.e. the text ended with a newline). -/
def linesFinish : List (List Nat) → List (List Nat)
  | [] => []
  | [l] => if l = [] then [] else [l]
  | l :: rest => stripCR l :: linesFinish rest

/-- Model of Rust `source_text.lines()` at the byte level. -/
def rustLines (src : List Nat) : List (List Nat) := linesFinish (splitNl src)

/-- Total extent covered by the line loop of `get_line_col`: each line
contributes its byte length plus one (the phantom newline the code adds
with `+ 1`). -/
def spanLen (lines : List (List Nat)) : Nat :=
  lines.foldr (fun l acc => l.length + 1 + acc) 0

/-! ## get_line_col (lib.rs lines 23-34) -/

/-- The loop of `get_line_col`: iterate over the lines, tracking
`line_start` and the 1-based line number; on exhaustion return the
fallback `(lines().count() + 1, 1)` (the accumulated line number equals
`count + 1` there). -/
def glcGo : List (List Nat) → Nat → Nat → Nat → Nat × Nat
  | [], _, n, _ => (n, 1)
  | l :: rest, lineStart, n, off =>
    if lineStart ≤ off ∧ off < lineStart + l.length + 1 then
      (n, off - lineStart + 1)
    else glcGo rest (lineStart + l.length + 1) (n + 1) off

/-- Model of `get_line_col` (lib.rs lines 23-34): convert a byte offset to a
1-based (line, column) pair. -/
def get_line_col (source_text : List Nat) (offset : Nat) : Nat × Nat :=
  glcGo (rustLines source_text) 0 1 offset

/-- Nat subtraction that fails (like a Rust usize underflow panic)
instead of truncating. -/
def checkedSub (a b : Nat) : Option Nat :=
  if b ≤ a then some (a - b) else none

/-- The loop of `get_line_col` with the subtraction `offset - line_start`
made explicitly checked: `none` models a usize-underflow panic. -/
def glcGoChecked : List (List Nat) → Nat → Nat → Nat → Option (Nat × Nat)
  | [], _, n, _ => some (n, 1)
  | l :: rest, lineStart, n, off =>
    if lineStart ≤ off ∧ off < lineStart + l.length + 1 then
      (checkedSub off lineStart).map (fun d => (n, d + 1))
    else glcGoChecked rest (lineStart + l.length + 1) (n + 1) off

/-- Variant of `get_line_col` with checked subtraction. -/
def get_line_col_checked (source_text : List Nat) (offset : Nat) :
    Option (Nat × Nat) :=
  glcGoChecked (rustLines source_text) 0 1 offset

/-! ## Spec-side position mapping (claim C3)

Modelled from the spec: "column counts bytes since the last line
boundary. Line boundaries are single newline characters." -/

/-- Spec-side line number: one plus the number of newline bytes strictly
before the offset. -/
def specLine (src : List Nat) (off : Nat) : Nat := 1 + (src.take off).count 10

/-- Spec-side count of bytes since the last single-newline boundary at
or before the offset. -/
def bytesSinceBoundary (src : List Nat) (off : Nat) : Nat :=
  ((src.take off).reverse.takeWhile (fun b => b != 10)).length

/-- Spec-side (line, column), following the spec's words for the
position mapper. -/
def specLineCol (src : List Nat) (off : Nat) : Nat × Nat :=
  (specLine src off, bytesSinceBoundary src off + 1)

/-! ## ScanResult and the AST visitor (lib.rs lines 13-91) -/

/-- Model of `ScanResult` (lib.rs lines 13-20). -/
structure ScanResult where
  file_path : String
  line : Nat
  column : Nat
  text : String
deriving DecidableEq, Repr

/-- The three AST node shapes `ChineseVisitor` reacts to.  The external
oxc parser produces them; each carries its decoded value(s) and the byte
offset `span.start` into the source. For a template literal, each quasi
carries its optional cooked (escape-decoded) value and its own span
start. -/
inductive AstNode where
  | stringLit (value : List Char) (spanStart : Nat)
  | templateLit (quasis : List (Option (List Char) × Nat))
  | jsxText (value : List Char) (spanStart : Nat)
deriving DecidableEq, Repr

/-- Model of `visit_string_literal` (lib.rs lines 44-56): on a regex match at
byte offset `k` of the decoded value, report at `span.start + 1 + k`
(the `+ 1` skips the opening quote) with the full decoded value as
text. -/
def visitStringLiteral (fp : String) (src : List Nat) (value : List Char)
    (spanStart : Nat) : List ScanResult :=
  match chineseFind value with
  | some k =>
    let p := get_line_col src (spanStart + 1 + k)
    [⟨fp, p.1, p.2, String.mk value⟩]
  | none => []

/-- Model of `visit_template_literal` (lib.rs lines 58-73): for each quasi with a
present cooked value that matches, report at `part.span.start + k`
(no quote adjustment) with the cooked value as text. -/
def visitTemplateLiteral (fp : String) (src : List Nat) :
    List (Option (List Char) × Nat) → List ScanResult
  | [] => []
  | (none, _) :: rest => visitTemplateLiteral fp src rest
  | (some cooked, spanStart) :: rest =>
    (match chineseFind cooked with
     | some k =>
       let p := get_line_col src (spanStart + k)
       [⟨fp, p.1, p.2, String.mk cooked⟩]
     | none => []) ++ visitTemplateLiteral fp src rest

/-- Model of `visit_jsx_text` (lib.rs lines 75-90): match against the raw value;
report at `span.start + k`, with the trimmed value as text, only when
the trimmed value is non-empty. -/
def visitJsxText (fp : String) (src : List Nat) (value : List Char)
    (spanStart : Nat) : List ScanResult :=
  match chineseFind value with
  | some k =>
    let p := get_line_col src (spanStart + k)
    let trimmed := rustTrim value
    if trimmed = [] then []
    else [⟨fp, p.1, p.2, String.mk trimmed⟩]
  | none => []

/-- One visited node's contribution to the accumulator. -/
def visitNode (fp : String) (src : List Nat) : AstNode → List ScanResult
  | .stringLit v s => visitStringLiteral fp src v s
  | .templateLit qs => visitTemplateLiteral fp src qs
  | .jsxText v s => visitJsxText fp src v s

/-! ## scan_directory (lib.rs lines 94-158)

The file system, walker and parser are external collaborators; they are
modelled by data carried in a `FileSystem` value.  Each walk entry
carries the outcome of the external steps taken for it (walk success,
file-ness, extension, read result, parse diagnostics, parsed program),
so that the control flow of the loop body is embedded faithfully. -/

/-- Model of `oxc::span::SourceType` capability flags, as produced by the four
arms of the extension match (lib.rs lines 124-130):
`SourceType::from_path(..)` with the respective `with_` modifier. -/
structure SourceType where
  script : Bool
  jsx : Bool
  typescript : Bool
deriving DecidableEq, Repr

/-- The extension dispatch of lib.rs lines 123-130: exactly the strings
"js", "jsx", "ts", "tsx" (case-sensitive) are recognized; anything else
(including a missing extension) hits the `_ => continue` arm. -/
def sourceTypeOf : Option String → Option SourceType
  | some "js" => some ⟨true, false, false⟩
  | some "jsx" => some ⟨false, true, false⟩
  | some "ts" => some ⟨false, false, true⟩
  | some "tsx" => some ⟨false, true, true⟩
  | _ => none

/-- One item yielded by the `ignore` walker, together with the outcome
of the external operations `scan_directory` performs on it:
`ok = false` models an `Err` walk result (skipped); `content = none`
models `fs::read_to_string` failing; `parseErrors` models the external
oxc parser returning non-empty diagnostics; `program` is the list of
candidate nodes the external parser produced (what `visit_program`
traverses). -/
structure WalkEntry where
  ok : Bool
  path : String
  isFile : Bool
  ext : Option String
  content : Option (List Nat)
  parseErrors : Bool
  program : List AstNode
deriving DecidableEq, Repr

/-- An ignore file on disk, addressable by `WalkBuilder::add_ignore`. -/
structure IgnoreFile where
  path : String
  rules : List String
deriving DecidableEq, Repr

/-- The file-system snapshot a scan runs against: whether the root is a
directory, the version-control ignore rules already in effect, the
ignore files present on disk, and the walk candidates under the root. -/
structure FileSystem where
  rootIsDir : Bool
  defaultRules : List String
  ignoreFiles : List IgnoreFile
  entries : List WalkEntry
deriving DecidableEq, Repr

/-- Rust `str::split(',')` on the code points of a string: always at
least one (possibly empty) segment. -/
def splitComma : List Char → List (List Char)
  | [] => [[]]
  | c :: cs =>
    if c = ',' then [] :: splitComma cs
    else
      match splitComma cs with
      | [] => [[c]]
      | l :: ls => (c :: l) :: ls

/-- The exclude-string preparation of lib.rs line 106 and the
`format!("!{}", pattern)` of line 107: split at commas, trim each
segment (Rust `str::trim`, Unicode whitespace), drop empty segments,
and prefix each survivor with `!`. -/
def formatExcludes (exclude : String) : List String :=
  ((((splitComma exclude.data).map rustTrim).filter
    (fun s => !s.isEmpty)).map (fun p => String.mk ('!' :: p)))

/-- Model of `ignore::WalkBuilder::add_ignore` (external collaborator):
its argument is a PATH to an ignore file.  When a file exists at that
path its rules are loaded; otherwise an error is returned
(`Option<ignore::Error>`), which lib.rs line 107 discards, and no rule
is added. -/
def addIgnore (disk : List IgnoreFile) (loaded : List String)
    (p : String) : List String × Option String :=
  match disk.find? (fun f => f.path == p) with
  | some f => (loaded ++ f.rules, none)
  | none => (loaded, some ("ignore file not found: " ++ p))

/-- Rules loaded by the loop of lib.rs lines 106-108 (errors from
`add_ignore` are discarded). -/
def loadExcludeRules (disk : List IgnoreFile) (exclude : String) :
    List String :=
  (formatExcludes exclude).foldl (fun acc p => (addIgnore disk acc p).1) []

/-- Simplified gitignore-rule semantics of the external matcher: a rule
is an exact path, later rules win, and a leading `!` negates
(re-includes).  Returns `true` when the path is ignored. -/
def ruleDecision (rules : List String) (path : String) : Bool :=
  rules.foldl
    (fun acc r =>
      if r == "!" ++ path then false
      else if r == path then true
      else acc)
    false

/-- The stream the configured walker yields: the candidates under the
root, minus those the effective rules ignore.  `.hidden(false)` is set
(lib.rs line 103), so dotfiles are among the candidates. -/
def walkOutput (fsys : FileSystem) (loaded : List String) :
    List WalkEntry :=
  fsys.entries.filter
    (fun e => !(ruleDecision (fsys.defaultRules ++ loaded) e.path))

/-- Concatenation of per-entry result lists (the per-iteration pushes
into the shared accumulator, read out after the loop). -/
def joinAll : List (List α) → List α
  | [] => []
  | l :: ls => l ++ joinAll ls

/-- The body of the walk loop (lib.rs lines 112-154) for one entry:
`Err` walk results, non-files, unrecognized extensions, unreadable
files and files with parse diagnostics contribute nothing; otherwise
the visitor runs over the parsed program. -/
def processEntry (e : WalkEntry) : List ScanResult :=
  if !e.ok then []
  else if !e.isFile then []
  else
    match sourceTypeOf e.ext with
    | none => []
    | some _ =>
      match e.content with
      | none => []
      | some src =>
        if e.parseErrors then []
        else joinAll (e.program.map (visitNode e.path src))

/-- Model of `scan_directory` (lib.rs lines 94-158).  The root check happens
first; the fixed regex `[一-龥]` is statically valid, so its
construction (line 110) never takes the error path; then the walk
runs and the accumulator is drained. -/
def scan_directory (fsys : FileSystem) (exclude : String) :
    Except String (List ScanResult) :=
  if !fsys.rootIsDir then .error "Path is not a directory"
  else
    let loaded := loadExcludeRules fsys.ignoreFiles exclude
    .ok (joinAll ((walkOutput fsys loaded).map processEntry))

/-- Whether an `Except` result is the success case. -/
def exceptOk : Except String (List ScanResult) → Bool
  | .ok _ => true
  | .error _ => false

/-! ## Concrete scenario data (spec §8, Scenario A and variants) -/

/-- Bytes of the Scenario A file: `const x = "你好";`. -/
def srcA : List Nat := utf8Encode "const x = \"你好\";"

/-- The walk entry for Scenario A: `a.ts`, readable, parses cleanly,
with one string literal whose opening quote is at byte offset 10. -/
def entryA : WalkEntry :=
  ⟨true, "a.ts", true, some "ts", some srcA, false,
   [.stringLit "你好".data 10]⟩

/-- Scenario A file system: the root is a directory holding `a.ts`;
no ignore files exist anywhere. -/
def fsA : FileSystem := ⟨true, [], [], [entryA]⟩

/-- Bytes of the C2 counterexample file content `"é你"` (a two-byte
code point precedes the first match inside the literal). -/
def srcC : List Nat := utf8Encode "\"é你\""

/-! ## Lemmas about the get_line_col loop -/

theorem spanLen_nil : spanLen ([] : List (List Nat)) = 0 := rfl

theorem spanLen_cons (l : List Nat) (rest : List (List Nat)) :
    spanLen (l :: rest) = l.length + 1 + spanLen rest := rfl

theorem glcGo_fst_ge (lines : List (List Nat)) :
    ∀ ls n off, n ≤ (glcGo lines ls n off).1 := by
  induction lines with
  | nil => intro ls n off; simp [glcGo]
  | cons l rest ih =>
    intro ls n off
    simp only [glcGo]
    split
    · simp
    · exact Nat.le_trans (Nat.le_succ n) (ih _ _ _)

theorem glcGoChecked_eq (lines : List (List Nat)) :
    ∀ ls n off, glcGoChecked lines ls n off = some (glcGo lines ls n off) := by
  induction lines with
  | nil => intro ls n off; rfl
  | cons l rest ih =>
    intro ls n off
    simp only [glcGoChecked, glcGo]
    split
    · next h => simp [checkedSub, h.1]
    · exact ih _ _ _

theorem glcGo_fallback (lines : List (List Nat)) :
    ∀ ls n off, ls + spanLen lines ≤ off →
      glcGo lines ls n off = (n + lines.length, 1) := by
  induction lines with
  | nil => intro ls n off h; simp [glcGo]
  | cons l rest ih =>
    intro ls n off h
    rw [spanLen_cons] at h
    simp only [glcGo]
    rw [if_neg (by omega)]
    rw [ih (ls + l.length + 1) (n + 1) off (by omega)]
    simp only [List.length_cons]
    congr 1
    omega

theorem glcGo_same_line (lines : List (List Nat)) :
    ∀ ls n a d, ls ≤ a → a + d < ls + spanLen lines →
      (glcGo lines ls n (a + d)).1 = (glcGo lines ls n a).1 →
      glcGo lines ls n (a + d) =
        ((glcGo lines ls n a).1, (glcGo lines ls n a).2 + d) := by
  induction lines with
  | nil =>
    intro ls n a d hls hin _
    rw [spanLen_nil] at hin
    omega
  | cons l rest ih =>
    intro ls n a d hls hin hfst
    rw [spanLen_cons] at hin
    by_cases h2 : a + d < ls + l.length + 1
    · have g2 : ls ≤ a + d ∧ a + d < ls + l.length + 1 := by omega
      have g1 : ls ≤ a ∧ a < ls + l.length + 1 := by omega
      simp only [glcGo, if_pos g1, if_pos g2]
      rw [Prod.mk.injEq]
      exact ⟨rfl, by omega⟩
    · by_cases h1 : a < ls + l.length + 1
      · exfalso
        have e1 : glcGo (l :: rest) ls n a = (n, a - ls + 1) := by
          simp only [glcGo, if_pos (show ls ≤ a ∧ a < ls + l.length + 1 by omega)]
        have e2 : n + 1 ≤ (glcGo (l :: rest) ls n (a + d)).1 := by
          simp only [glcGo, if_neg (show ¬(ls ≤ a + d ∧ a + d < ls + l.length + 1) by omega)]
          exact glcGo_fst_ge rest _ _ _
        rw [e1] at hfst
        omega
      · simp only [glcGo,
          if_neg (show ¬(ls ≤ a + d ∧ a + d < ls + l.length + 1) by omega),
          if_neg (show ¬(ls ≤ a ∧ a < ls + l.length + 1) by omega)] at hfst ⊢
        exact ih (ls + l.length + 1) (n + 1) a d (by omega) (by omega) hfst

/-- Claim C10: the byte-offset-to-line/column conversion is total.  The
checked variant (in which `offset - line_start` fails like a usize
underflow would) always succeeds and agrees with the code, because the
subtraction sits under the guard `offset >= line_start`; and every
offset not contained in any line's extent reaches the fallback branch
`(lineCount + 1, 1)`. -/
theorem get_line_col_total_no_underflow :
    (∀ src off, get_line_col_checked src off = some (get_line_col src off)) ∧
    (∀ src off, spanLen (rustLines src) ≤ off →
      get_line_col src off = ((rustLines src).length + 1, 1)) := by
  constructor
  · intro src off
    exact glcGoChecked_eq (rustLines src) 0 1 off
  · intro src off h
    unfold get_line_col
    rw [glcGo_fallback (rustLines src) 0 1 off (by omega)]
    congr 1
    omega

/-- Witness for the fallback conjunct of the C10 theorem at a concrete
input: `"a\nb"` has line span 4, and offset 9 falls back to `(3, 1)`. -/
theorem get_line_col_total_no_underflow_witness :
    get_line_col_checked [97, 10, 98] 9 = some (get_line_col [97, 10, 98] 9) ∧
    get_line_col [97, 10, 98] 9 = ((rustLines [97, 10, 98]).length + 1, 1) :=
  ⟨get_line_col_total_no_underflow.1 [97, 10, 98] 9,
   get_line_col_total_no_underflow.2 [97, 10, 98] 9 (by decide)⟩

/-! ## Claim C4: error taxonomy of scan_directory -/

/-- Claim C4: `scan_directory` returns a top-level error exactly when
the root path is not a directory (the internal matcher is the fixed,
statically valid regex of lib.rs line 110, so its construction never
fails and the claim's second disjunct is vacuous); in the error case the
`Except.error` value carries no results; and each per-entry problem
(failed walk entry, non-file, unreadable file, parse diagnostics)
contributes nothing and aborts nothing. -/
theorem scan_directory_error_iff_not_dir :
    (∀ fsys exclude, exceptOk (scan_directory fsys exclude) = fsys.rootIsDir) ∧
    (∀ e : WalkEntry,
      e.ok = false ∨ e.isFile = false ∨ e.content = none ∨ e.parseErrors = true →
      processEntry e = []) := by
  constructor
  · intro fsys exclude
    unfold scan_directory
    cases h : fsys.rootIsDir <;> simp [h, exceptOk]
  · intro e h
    obtain ⟨ok, path, isFile, ext, content, perr, prog⟩ := e
    simp only at h
    cases ok with
    | false => simp [processEntry]
    | true =>
      cases isFile with
      | false => simp [processEntry]
      | true =>
        rcases h with h | h | h | h
        · exact absurd h (by simp)
        · exact absurd h (by simp)
        · subst h
          simp only [processEntry]
          cases sourceTypeOf ext <;> simp
        · subst h
          simp only [processEntry]
          cases sourceTypeOf ext <;> cases content <;> simp

/-- Root that is not a directory, and a failed walk entry. -/
def fsBad : FileSystem := ⟨false, [], [], [entryA]⟩

/-- A walk entry whose walker result was an `Err`. -/
def entryBad : WalkEntry := ⟨false, "x.ts", true, some "ts", none, false, []⟩

/-- Witness for the C4 theorem at concrete inputs. -/
theorem scan_directory_error_iff_not_dir_witness :
    exceptOk (scan_directory fsBad "") = false ∧ processEntry entryBad = [] :=
  ⟨scan_directory_error_iff_not_dir.1 fsBad "",
   scan_directory_error_iff_not_dir.2 entryBad (Or.inl rfl)⟩

/-! ## Claim C5: unrecognized extensions -/

theorem mem_joinAll {α : Type} {r : α} :
    ∀ {ls : List (List α)}, r ∈ joinAll ls ↔ ∃ l ∈ ls, r ∈ l := by
  intro ls
  induction ls with
  | nil => simp [joinAll]
  | cons l rest ih => simp [joinAll, List.mem_append, ih]

theorem visitTemplateLiteral_path (fp : String) (src : List Nat) :
    ∀ (qs : List (Option (List Char) × Nat)) (r : ScanResult),
      r ∈ visitTemplateLiteral fp src qs → r.file_path = fp := by
  intro qs
  induction qs with
  | nil => intro r h; simp [visitTemplateLiteral] at h
  | cons q rest ih =>
    intro r h
    match q with
    | (none, s) =>
      exact ih r h
    | (some cooked, s) =>
      simp only [visitTemplateLiteral] at h
      rcases List.mem_append.mp h with h | h
      · cases hf : chineseFind cooked <;> rw [hf] at h <;> simp at h
        subst h; rfl
      · exact ih r h

theorem visitNode_path (fp : String) (src : List Nat) (node : AstNode)
    (r : ScanResult) (h : r ∈ visitNode fp src node) : r.file_path = fp := by
  match node with
  | .stringLit v s =>
    simp only [visitNode, visitStringLiteral] at h
    cases hf : chineseFind v <;> rw [hf] at h <;> simp at h
    subst h; rfl
  | .templateLit qs =>
    exact visitTemplateLiteral_path fp src qs r h
  | .jsxText v s =>
    simp only [visitNode, visitJsxText] at h
    cases hf : chineseFind v <;> rw [hf] at h <;> simp at h
    rw [h.2]

theorem processEntry_path (e : WalkEntry) (r : ScanResult)
    (h : r ∈ processEntry e) : r.file_path = e.path := by
  unfold processEntry at h
  split at h
  · simp at h
  · split at h
    · simp at h
    · split at h
      · simp at h
      · split at h
        · simp at h
        · split at h
          · simp at h
          · obtain ⟨l, hl, hr⟩ := mem_joinAll.mp h
            obtain ⟨node, _, hnode⟩ := List.mem_map.mp hl
            subst hnode
            exact visitNode_path _ _ _ _ hr

theorem sourceTypeOf_none_of_unrecognized (ext : Option String)
    (h : ext ≠ some "js" ∧ ext ≠ some "jsx" ∧ ext ≠ some "ts" ∧ ext ≠ some "tsx") :
    sourceTypeOf ext = none := by
  unfold sourceTypeOf
  split <;> simp_all

theorem processEntry_eq_nil_of_unsupported (e : WalkEntry)
    (h : sourceTypeOf e.ext = none) : processEntry e = [] := by
  unfold processEntry
  split
  · rfl
  · split
    · rfl
    · rw [h]

/-- Claim C5: a file whose extension (under every walk entry carrying
its path) is not exactly one of js, jsx, ts, tsx never contributes a
result, whatever its content, and the scan still succeeds. -/
theorem unsupported_extension_no_results :
    ∀ (fsys : FileSystem) (exclude p : String) (res : List ScanResult),
      (∀ e ∈ fsys.entries, e.path = p →
        e.ext ≠ some "js" ∧ e.ext ≠ some "jsx" ∧
        e.ext ≠ some "ts" ∧ e.ext ≠ some "tsx") →
      scan_directory fsys exclude = .ok res →
      ∀ r ∈ res, r.file_path ≠ p := by
  intro fsys exclude p res hext hscan r hr hp
  unfold scan_directory at hscan
  cases hdir : fsys.rootIsDir with
  | false => rw [hdir] at hscan; simp at hscan
  | true =>
    rw [hdir] at hscan
    simp only [Bool.not_true, Bool.false_eq_true, if_false] at hscan
    rw [Except.ok.injEq] at hscan
    subst hscan
    obtain ⟨l, hl, hrl⟩ := mem_joinAll.mp hr
    obtain ⟨e, he, hle⟩ := List.mem_map.mp hl
    subst hle
    have hep : e ∈ fsys.entries := List.mem_of_mem_filter he
    have hpath : r.file_path = e.path := processEntry_path e r hrl
    have hnone : sourceTypeOf e.ext = none :=
      sourceTypeOf_none_of_unrecognized e.ext (hext e hep (by rw [← hpath, hp]))
    rw [processEntry_eq_nil_of_unsupported e hnone] at hrl
    simp at hrl

/-- A walk entry with an unrecognized extension whose content holds a
matching string literal. -/
def entryMd : WalkEntry :=
  ⟨true, "b.md", true, some "md", some (utf8Encode "你好"), false,
   [.stringLit "你好".data 0]⟩

/-- File system with an unsupported file next to `a.ts`. -/
def fsW : FileSystem := ⟨true, [], [], [entryMd, entryA]⟩

/-- Witness for the C5 theorem: scanning `fsW` yields only the `a.ts`
result, whose path differs from `b.md`. -/
theorem unsupported_extension_no_results_witness :
    (⟨"a.ts", 1, 12, "你好"⟩ : ScanResult).file_path ≠ "b.md" :=
  unsupported_extension_no_results fsW "" "b.md" [⟨"a.ts", 1, 12, "你好"⟩]
    (by decide) (by rfl) ⟨"a.ts", 1, 12, "你好"⟩ (by decide)

/-! ## Claim C6: template-literal static segments -/

/-- Claim C6: a template quasi with a present cooked value containing a
match is reported with the cooked (escape-decoded) value as text and
with its own span start used directly (`span.start + k`, no quote
adjustment); a quasi whose cooked value is absent is skipped; a quasi
without a match contributes nothing. -/
theorem template_quasi_cooked_reporting :
    (∀ (fp : String) (src : List Nat) (cooked : List Char) (s k : Nat)
        (rest : List (Option (List Char) × Nat)),
      chineseFind cooked = some k →
      visitTemplateLiteral fp src ((some cooked, s) :: rest) =
        ⟨fp, (get_line_col src (s + k)).1, (get_line_col src (s + k)).2,
          String.mk cooked⟩ :: visitTemplateLiteral fp src rest) ∧
    (∀ (fp : String) (src : List Nat) (s : Nat)
        (rest : List (Option (List Char) × Nat)),
      visitTemplateLiteral fp src ((none, s) :: rest) =
        visitTemplateLiteral fp src rest) ∧
    (∀ (fp : String) (src : List Nat) (cooked : List Char) (s : Nat)
        (rest : List (Option (List Char) × Nat)),
      chineseFind cooked = none →
      visitTemplateLiteral fp src ((some cooked, s) :: rest) =
        visitTemplateLiteral fp src rest) := by
  refine ⟨?_, ?_, ?_⟩
  · intro fp src cooked s k rest h
    simp only [visitTemplateLiteral, h]
    rfl
  · intro fp src s rest
    rfl
  · intro fp src cooked s rest h
    simp only [visitTemplateLiteral, h]
    rfl

/-- Witness for the C6 theorem on the file `` `哈` `` (cooked segment
"哈" with span start 1). -/
theorem template_quasi_cooked_reporting_witness :
    visitTemplateLiteral "t.ts" (utf8Encode "`哈`") [(some "哈".data, 1)] =
      [⟨"t.ts", (get_line_col (utf8Encode "`哈`") (1 + 0)).1,
        (get_line_col (utf8Encode "`哈`") (1 + 0)).2, String.mk "哈".data⟩] ∧
    visitTemplateLiteral "t.ts" (utf8Encode "`哈`") [(none, 1)] = [] :=
  ⟨template_quasi_cooked_reporting.1 "t.ts" (utf8Encode "`哈`") "哈".data 1 0 []
    (by decide),
   template_quasi_cooked_reporting.2.1 "t.ts" (utf8Encode "`哈`") 1 []⟩

/-! ## Claim C7: markup (JSX) text runs -/

/-- Claim C7: a JSX text run is matched against its raw value (the
match offset `k` that positions the report is computed on the raw
value); the reported text is the whitespace-trimmed value; a run is
reported only when the trimmed value is non-empty, and a run whose
trimmed value is empty is never reported even when the raw value
matches. -/
theorem jsx_text_trim_reporting :
    (∀ (fp : String) (src : List Nat) (v : List Char) (s k : Nat),
      chineseFind v = some k → rustTrim v ≠ [] →
      visitJsxText fp src v s =
        [⟨fp, (get_line_col src (s + k)).1, (get_line_col src (s + k)).2,
          String.mk (rustTrim v)⟩]) ∧
    (∀ (fp : String) (src : List Nat) (v : List Char) (s : Nat),
      rustTrim v = [] → visitJsxText fp src v s = []) ∧
    (∀ (fp : String) (src : List Nat) (v : List Char) (s : Nat),
      chineseFind v = none → visitJsxText fp src v s = []) := by
  refine ⟨?_, ?_, ?_⟩
  · intro fp src v s k hfind htrim
    simp only [visitJsxText, hfind]
    rw [if_neg htrim]
  · intro fp src v s htrim
    unfold visitJsxText
    cases hfind : chineseFind v
    · rfl
    · simp only [htrim, if_pos]
  · intro fp src v s hfind
    simp only [visitJsxText, hfind]

/-- Witness for the C7 theorem on the Scenario B run
`   混合 text  ` (match at raw byte offset 3, trimmed text `混合 text`)
and on the all-whitespace run `  `. -/
theorem jsx_text_trim_reporting_witness :
    visitJsxText "b.tsx" (utf8Encode "<a>   混合 text  </a>") "   混合 text  ".data 3 =
      [⟨"b.tsx",
        (get_line_col (utf8Encode "<a>   混合 text  </a>") (3 + 3)).1,
        (get_line_col (utf8Encode "<a>   混合 text  </a>") (3 + 3)).2,
        String.mk (rustTrim "   混合 text  ".data)⟩] ∧
    visitJsxText "b.tsx" (utf8Encode "<a>  </a>") "  ".data 3 = [] :=
  ⟨jsx_text_trim_reporting.1 "b.tsx" (utf8Encode "<a>   混合 text  </a>")
      "   混合 text  ".data 3 3 (by decide) (by decide),
   jsx_text_trim_reporting.2.1 "b.tsx" (utf8Encode "<a>  </a>") "  ".data 3
      (by decide)⟩

/-! ## Claim C8: determinism of the scan -/

theorem joinAll_perm {α : Type} {l₁ l₂ : List (List α)} (h : l₁.Perm l₂) :
    (joinAll l₁).Perm (joinAll l₂) := by
  induction h with
  | nil => exact .refl _
  | cons x _ ih => exact ih.append_left x
  | swap x y l =>
    simp only [joinAll]
    rw [← List.append_assoc, ← List.append_assoc]
    exact (List.perm_append_comm).append_right _
  | trans _ _ ih₁ ih₂ => exact ih₁.trans ih₂

/-- Claim C8: the scan is deterministic in its inputs.  Two runs over
the same unmodified directory (same root, same rules and ignore files,
same files — the walker may enumerate them in any order) with the same
exclude string return the same multiset of results; in particular two
identical runs return the same set. -/
theorem scan_deterministic_up_to_perm :
    ∀ (fs₁ fs₂ : FileSystem) (exclude : String)
      (res₁ res₂ : List ScanResult),
      fs₁.rootIsDir = fs₂.rootIsDir →
      fs₁.defaultRules = fs₂.defaultRules →
      fs₁.ignoreFiles = fs₂.ignoreFiles →
      fs₁.entries.Perm fs₂.entries →
      scan_directory fs₁ exclude = .ok res₁ →
      scan_directory fs₂ exclude = .ok res₂ →
      res₁.Perm res₂ := by
  intro fs₁ fs₂ exclude res₁ res₂ hdir hrules hign hperm h₁ h₂
  unfold scan_directory at h₁ h₂
  cases hd : fs₁.rootIsDir with
  | false =>
    rw [hd] at h₁
    simp at h₁
  | true =>
    rw [hd] at h₁
    rw [← hdir, hd] at h₂
    simp only [Bool.not_true, Bool.false_eq_true, if_false] at h₁ h₂
    rw [Except.ok.injEq] at h₁ h₂
    subst h₁
    subst h₂
    apply joinAll_perm
    apply List.Perm.map
    unfold walkOutput
    rw [hrules, hign]
    exact hperm.filter _

/-- Scenario A with the walk order reversed (a second, additionally
ignored-by-nothing file `c.ts` ensures the permutation is non-trivial). -/
def entryC : WalkEntry :=
  ⟨true, "c.ts", true, some "ts", some srcC, false, [.stringLit "é你".data 0]⟩

/-- Two-file system, one walk order. -/
def fsP1 : FileSystem := ⟨true, [], [], [entryA, entryC]⟩

/-- The same two-file system, the other walk order. -/
def fsP2 : FileSystem := ⟨true, [], [], [entryC, entryA]⟩

/-- Witness for the C8 theorem: the two walk orders of the same
directory yield permuted result lists. -/
theorem scan_deterministic_up_to_perm_witness :
    List.Perm
      [(⟨"a.ts", 1, 12, "你好"⟩ : ScanResult), ⟨"c.ts", 1, 4, "é你"⟩]
      [⟨"c.ts", 1, 4, "é你"⟩, ⟨"a.ts", 1, 12, "你好"⟩] :=
  scan_deterministic_up_to_perm fsP1 fsP2 ""
    [⟨"a.ts", 1, 12, "你好"⟩, ⟨"c.ts", 1, 4, "é你"⟩]
    [⟨"c.ts", 1, 4, "é你"⟩, ⟨"a.ts", 1, 12, "你好"⟩]
    rfl rfl rfl (by decide) (by rfl) (by rfl)

/-! ## Claim C1: exclude patterns -/

/-- Claim C1 fails on the code: `WalkBuilder::add_ignore` takes the
path of an ignore FILE, but lib.rs line 107 passes it the formatted
pattern `!<pattern>`.  No file of that name exists, the returned error
is discarded, no ignore rule is loaded, and the excluded file is
scanned and reported anyway: excluding `a.ts` still reports `a.ts`. -/
theorem exclude_pattern_has_no_effect :
    formatExcludes "a.ts" = ["!a.ts"] ∧
    addIgnore fsA.ignoreFiles [] "!a.ts" =
      ([], some "ignore file not found: !a.ts") ∧
    loadExcludeRules fsA.ignoreFiles "a.ts" = [] ∧
    scan_directory fsA "a.ts" = .ok [⟨"a.ts", 1, 12, "你好"⟩] := by
  refine ⟨by rfl, by rfl, by rfl, by rfl⟩

/-! ## Claim C2: string-literal columns -/

/-- Claim C2 as stated is false: the offset the code adds to the
position is `regex::Match::start`, a BYTE offset into the UTF-8 decoded
value, not a character offset.  In the file `"é你"` the opening quote
is at column 1 and the first matching code point sits at character
offset 1 of the value, so the claim predicts column 1 + 1 + 1 = 3; the
code reports column 4, because the match's byte offset in the value
is 2 (`é` takes two bytes). -/
theorem string_literal_column_char_offset_counterexample :
    get_line_col srcC 0 = (1, 1) ∧
    chineseFindCharIdx "é你".data = some 1 ∧
    (visitStringLiteral "c.ts" srcC "é你".data 0).map (fun r => r.column) = [4] ∧
    (4 : Nat) ≠ 1 + 1 + 1 :=
  ⟨by rfl, by rfl, by rfl, by decide⟩

/-- Claim C2 (amended): with the match's BYTE offset k within the UTF-8
encoding of the decoded value in place of the character offset, and
provided the reported position resolves to the same line as the opening
quote, the reported column is the quote's column plus k plus one and
the text is the decoded value; in particular Scenario A (`a.ts`
containing `const x = "你好";`) yields exactly
`{a.ts, line 1, column 12, 你好}`. -/
theorem string_literal_column_byte_offset :
    (∀ (fp : String) (src : List Nat) (v : List Char) (s k : Nat),
      chineseFind v = some k →
      s + 1 + k < spanLen (rustLines src) →
      (get_line_col src (s + 1 + k)).1 = (get_line_col src s).1 →
      visitStringLiteral fp src v s =
        [⟨fp, (get_line_col src s).1, (get_line_col src s).2 + k + 1,
          String.mk v⟩]) ∧
    scan_directory fsA "" = .ok [⟨"a.ts", 1, 12, "你好"⟩] := by
  constructor
  · intro fp src v s k hfind hin hline
    simp only [visitStringLiteral, hfind]
    have ha : s + 1 + k = s + (k + 1) := by omega
    rw [ha] at hin hline ⊢
    have hsame : get_line_col src (s + (k + 1)) =
        ((get_line_col src s).1, (get_line_col src s).2 + (k + 1)) :=
      glcGo_same_line (rustLines src) 0 1 s (k + 1) (Nat.zero_le s)
        (by omega) hline
    rw [hsame]
    simp [Nat.add_assoc]
  · rfl

/-- Witness for the C2 theorem at Scenario A's literal. -/
theorem string_literal_column_byte_offset_witness :
    visitStringLiteral "a.ts" srcA "你好".data 10 =
      [⟨"a.ts", (get_line_col srcA 10).1, (get_line_col srcA 10).2 + 0 + 1,
        String.mk "你好".data⟩] :=
  string_literal_column_byte_offset.1 "a.ts" srcA "你好".data 10 0
    (by rfl) (by decide) (by rfl)

/-! ## Claim C3: the position-mapper contract -/

theorem takeWhile_of_all {α : Type} (p : α → Bool) :
    ∀ (L : List α), (∀ a ∈ L, p a = true) → L.takeWhile p = L := by
  intro L
  induction L with
  | nil => intro _; rfl
  | cons x xs ih =>
    intro h
    rw [List.takeWhile_cons, if_pos (h x (List.mem_cons_self x xs))]
    rw [ih (fun a ha => h a (List.mem_cons_of_mem x ha))]

theorem takeWhile_append_sep {α : Type} (p : α → Bool) (s : α)
    (hs : p s = false) :
    ∀ (X Y : List α), ((X ++ s :: Y).takeWhile p) = X.takeWhile p := by
  intro X Y
  induction X with
  | nil => simp [List.takeWhile_cons, hs]
  | cons x xs ih =>
    cases hpx : p x <;>
      simp [List.takeWhile_cons, hpx, ih]

theorem splitNl_ne_nil : ∀ (src : List Nat), splitNl src ≠ [] := by
  intro src
  cases src with
  | nil => simp [splitNl]
  | cons b bs =>
    simp only [splitNl]
    split
    · simp
    · split <;> simp

theorem splitNl_no10 : ∀ (src : List Nat), 10 ∉ src → splitNl src = [src] := by
  intro src
  induction src with
  | nil => intro _; rfl
  | cons b bs ih =>
    intro h
    have hb : b ≠ 10 := fun hb => h (hb ▸ List.mem_cons_self b bs)
    have hbs : 10 ∉ bs := fun hm => h (List.mem_cons_of_mem b hm)
    simp only [splitNl, if_neg hb]
    rw [ih hbs]

theorem splitNl_append : ∀ (l₀ rest : List Nat), 10 ∉ l₀ →
    splitNl (l₀ ++ 10 :: rest) = l₀ :: splitNl rest := by
  intro l₀
  induction l₀ with
  | nil => intro rest _; simp [splitNl]
  | cons b l ih =>
    intro rest h
    have hb : b ≠ 10 := fun hb => h (hb ▸ List.mem_cons_self b l)
    have hl : 10 ∉ l := fun hm => h (List.mem_cons_of_mem b hm)
    simp only [List.cons_append, splitNl, if_neg hb]
    show (match splitNl (l ++ 10 :: rest) with
      | [] => [[b]]
      | l' :: ls => (b :: l') :: ls) = (b :: l) :: splitNl rest
    rw [ih rest hl]

theorem stripCR_no13 : ∀ (l : List Nat), 13 ∉ l → stripCR l = l := by
  intro l h
  unfold stripCR
  split
  · next rest heq =>
    exfalso
    apply h
    rw [← List.mem_reverse, heq]
    exact List.mem_cons_self 13 rest
  · rfl

theorem linesFinish_cons : ∀ (l : List Nat) (segs : List (List Nat)),
    segs ≠ [] → linesFinish (l :: segs) = stripCR l :: linesFinish segs := by
  intro l segs h
  cases segs with
  | nil => exact absurd rfl h
  | cons s ss => rfl

theorem rustLines_no10 : ∀ (src : List Nat), 10 ∉ src → src ≠ [] →
    rustLines src = [src] := by
  intro src h hne
  unfold rustLines
  rw [splitNl_no10 src h]
  simp [linesFinish, hne]

theorem rustLines_append : ∀ (l₀ rest : List Nat), 10 ∉ l₀ → 13 ∉ l₀ →
    rustLines (l₀ ++ 10 :: rest) = l₀ :: rustLines rest := by
  intro l₀ rest h10 h13
  unfold rustLines
  rw [splitNl_append l₀ rest h10,
      linesFinish_cons l₀ (splitNl rest) (splitNl_ne_nil rest),
      stripCR_no13 l₀ h13]

theorem exists_split_at_10 : ∀ (src : List Nat), 10 ∈ src →
    ∃ l₀ rest, src = l₀ ++ 10 :: rest ∧ 10 ∉ l₀ := by
  intro src
  induction src with
  | nil => intro h; simp at h
  | cons b bs ih =>
    intro h
    by_cases hb : b = 10
    · exact ⟨[], bs, by rw [hb]; rfl, by simp⟩
    · have hbs : 10 ∈ bs := by
        rcases List.mem_cons.mp h with h' | h'
        · exact absurd h'.symm hb
        · exact h'
      obtain ⟨l₀, rest, heq, hnot⟩ := ih hbs
      refine ⟨b :: l₀, rest, by rw [heq]; rfl, ?_⟩
      intro hm
      rcases List.mem_cons.mp hm with h' | h'
      · exact hb h'.symm
      · exact hnot h'

theorem bne10_of_mem {src : List Nat} (h10 : 10 ∉ src) :
    ∀ a ∈ src, (a != 10) = true := by
  intro a ha
  exact bne_iff_ne.mpr (fun h => h10 (h ▸ ha))

theorem glcGo_shift (lines : List (List Nat)) :
    ∀ (c ls n off : Nat),
      glcGo lines (ls + c) n (off + c) = glcGo lines ls n off := by
  induction lines with
  | nil => intro c ls n off; rfl
  | cons l rest ih =>
    intro c ls n off
    simp only [glcGo]
    by_cases h : ls ≤ off ∧ off < ls + l.length + 1
    · rw [if_pos (show ls + c ≤ off + c ∧ off + c < ls + c + l.length + 1 by omega),
        if_pos h, Prod.mk.injEq]
      exact ⟨rfl, by omega⟩
    · rw [if_neg (show ¬(ls + c ≤ off + c ∧ off + c < ls + c + l.length + 1) by omega),
        if_neg h]
      rw [show ls + c + l.length + 1 = (ls + l.length + 1) + c by omega, ih]

theorem glcGo_succ_n (lines : List (List Nat)) :
    ∀ (ls n off : Nat), glcGo lines ls (n + 1) off =
      ((glcGo lines ls n off).1 + 1, (glcGo lines ls n off).2) := by
  induction lines with
  | nil => intro ls n off; rfl
  | cons l rest ih =>
    intro ls n off
    simp only [glcGo]
    by_cases h : ls ≤ off ∧ off < ls + l.length + 1
    · rw [if_pos h, if_pos h]
    · rw [if_neg h, if_neg h, ih]

theorem glc_eq_spec : ∀ (N : Nat) (src : List Nat) (off : Nat),
    src.length ≤ N → 13 ∉ src → off < spanLen (rustLines src) →
    get_line_col src off = specLineCol src off := by
  intro N
  induction N with
  | zero =>
    intro src off hlen _ hoff
    have hsrc : src = [] := List.length_eq_zero.mp (Nat.le_zero.mp hlen)
    subst hsrc
    rw [show rustLines ([] : List Nat) = [] from rfl, spanLen_nil] at hoff
    omega
  | succ N ih =>
    intro src off hlen h13 hoff
    by_cases h10 : 10 ∈ src
    · obtain ⟨l₀, rest, heq, hl0⟩ := exists_split_at_10 src h10
      subst heq
      have h13l : 13 ∉ l₀ := fun hm => h13 (List.mem_append_left _ hm)
      have h13r : 13 ∉ rest :=
        fun hm => h13 (List.mem_append_right _ (List.mem_cons_of_mem 10 hm))
      rw [rustLines_append l₀ rest hl0 h13l, spanLen_cons] at hoff
      by_cases hcase : off < l₀.length + 1
      · have hglc : get_line_col (l₀ ++ 10 :: rest) off = (1, off + 1) := by
          unfold get_line_col
          rw [rustLines_append l₀ rest hl0 h13l]
          simp only [glcGo,
            if_pos (show 0 ≤ off ∧ off < 0 + l₀.length + 1 by omega)]
          rw [Nat.sub_zero]
        have htake : (l₀ ++ 10 :: rest).take off = l₀.take off := by
          rw [List.take_append_eq_append_take,
            show off - l₀.length = 0 by omega]
          simp
        have hc : (l₀.take off).count 10 = 0 :=
          List.count_eq_zero.mpr (fun hm => hl0 (List.mem_of_mem_take hm))
        have hw : ((l₀.take off).reverse.takeWhile (fun b => b != 10)).length
            = off := by
          rw [takeWhile_of_all _ _ (fun a ha =>
            bne10_of_mem hl0 a (List.mem_of_mem_take (List.mem_reverse.mp ha)))]
          rw [List.length_reverse, List.length_take]
          omega
        rw [hglc]
        simp only [specLineCol, specLine, bytesSinceBoundary, htake]
        rw [Prod.mk.injEq]
        exact ⟨by omega, by omega⟩
      · have hoff' : off - (l₀.length + 1) < spanLen (rustLines rest) := by
          omega
        have hlen' : rest.length ≤ N := by
          rw [List.length_append, List.length_cons] at hlen
          omega
        have ihr := ih rest (off - (l₀.length + 1)) hlen' h13r hoff'
        have hglc : get_line_col (l₀ ++ 10 :: rest) off =
            ((get_line_col rest (off - (l₀.length + 1))).1 + 1,
             (get_line_col rest (off - (l₀.length + 1))).2) := by
          unfold get_line_col
          rw [rustLines_append l₀ rest hl0 h13l]
          simp only [glcGo,
            if_neg (show ¬(0 ≤ off ∧ off < 0 + l₀.length + 1) by omega)]
          conv_lhs =>
            rw [show (0 : Nat) + l₀.length + 1 = 0 + (l₀.length + 1) by omega,
              show off = (off - (l₀.length + 1)) + (l₀.length + 1) by omega]
          rw [glcGo_shift]
          rw [glcGo_succ_n]
        have htake : (l₀ ++ 10 :: rest).take off =
            l₀ ++ 10 :: rest.take (off - (l₀.length + 1)) := by
          rw [List.take_append_eq_append_take,
            List.take_of_length_le (show l₀.length ≤ off by omega)]
          congr 1
          rw [show off - l₀.length = (off - (l₀.length + 1)) + 1 by omega,
            List.take_succ_cons]
        have hrev : ((l₀ ++ 10 :: rest.take (off - (l₀.length + 1))).reverse)
            = (rest.take (off - (l₀.length + 1))).reverse ++ 10 :: l₀.reverse := by
          rw [List.reverse_append, List.reverse_cons, List.append_assoc]
          rfl
        have hc : (l₀ ++ 10 :: rest.take (off - (l₀.length + 1))).count 10
            = (rest.take (off - (l₀.length + 1))).count 10 + 1 := by
          rw [List.count_append, List.count_cons_self,
            List.count_eq_zero.mpr (fun hm => hl0 hm)]
          omega
        have hw : ((l₀ ++ 10 :: rest.take (off - (l₀.length + 1))).reverse.takeWhile
              (fun b => b != 10)).length
            = ((rest.take (off - (l₀.length + 1))).reverse.takeWhile
              (fun b => b != 10)).length := by
          rw [hrev, takeWhile_append_sep _ 10 (by decide)]
        rw [hglc, ihr]
        simp only [specLineCol, specLine, bytesSinceBoundary, htake]
        rw [Prod.mk.injEq]
        exact ⟨by omega, by omega⟩
    · by_cases hnil : src = []
      · subst hnil
        rw [show rustLines ([] : List Nat) = [] from rfl, spanLen_nil] at hoff
        omega
      · rw [rustLines_no10 src h10 hnil, spanLen_cons, spanLen_nil] at hoff
        have hglc : get_line_col src off = (1, off + 1) := by
          unfold get_line_col
          rw [rustLines_no10 src h10 hnil]
          simp only [glcGo,
            if_pos (show 0 ≤ off ∧ off < 0 + src.length + 1 by omega)]
          rw [Nat.sub_zero]
        have hc : (src.take off).count 10 = 0 :=
          List.count_eq_zero.mpr (fun hm => h10 (List.mem_of_mem_take hm))
        have hw : ((src.take off).reverse.takeWhile (fun b => b != 10)).length
            = off := by
          rw [takeWhile_of_all _ _ (fun a ha =>
            bne10_of_mem h10 a (List.mem_of_mem_take (List.mem_reverse.mp ha)))]
          rw [List.length_reverse, List.length_take]
          omega
        rw [hglc]
        simp only [specLineCol, specLine, bytesSinceBoundary]
        rw [Prod.mk.injEq]
        exact ⟨by omega, by omega⟩

/-- Claim C3 as stated is false on two points.  (a) For text containing
a `\r\n` line ending (`a\r\nb`, bytes [97,13,10,98]) the code reports
column 2 at offset 3 (the `b`), because Rust `lines()` strips the `\r`
and the accumulated `line_start` undercounts the bytes actually
consumed; counting bytes since the last single-newline boundary gives
column 1.  (b) At offset 2 of the two-byte text `ab` — an offset beyond
the end of the text — the code resolves into the last line's phantom
position and returns (1, 3), not the claimed fallback
(lineCount + 1, 1) = (2, 1). -/
theorem get_line_col_crlf_counterexample :
    get_line_col [97, 13, 10, 98] 3 = (2, 2) ∧
    specLineCol [97, 13, 10, 98] 3 = (2, 1) ∧
    ((2 : Nat), (2 : Nat)) ≠ ((2 : Nat), (1 : Nat)) ∧
    get_line_col [97, 98] 2 = (1, 3) ∧
    ((rustLines [97, 98]).length + 1, 1) = ((2 : Nat), (1 : Nat)) ∧
    ((1 : Nat), (3 : Nat)) ≠ ((2 : Nat), (1 : Nat)) := by
  refine ⟨by rfl, by rfl, by decide, by rfl, by rfl, by decide⟩

/-- Claim C3 (amended): for carriage-return-free source text, the
mapper returns the 1-based (line, column) pair in which the column
counts bytes since the last newline boundary, for every offset within
the lines' extents (each line's length plus one, which covers every
offset of a final line without trailing newline together with its
one-past-end position); every offset at or beyond the total extent
returns the fallback (lineCount + 1, 1) rather than failing.  With
`\r\n` endings the stripped `\r` bytes shift the computed column away
from the bytes-since-boundary count. -/
theorem get_line_col_newline_only_spec :
    (∀ (src : List Nat) (off : Nat), 13 ∉ src →
      off < spanLen (rustLines src) →
      get_line_col src off = specLineCol src off) ∧
    (∀ (src : List Nat) (off : Nat), spanLen (rustLines src) ≤ off →
      get_line_col src off = ((rustLines src).length + 1, 1)) := by
  constructor
  · intro src off h13 hoff
    exact glc_eq_spec src.length src off (Nat.le_refl _) h13 hoff
  · intro src off h
    unfold get_line_col
    rw [glcGo_fallback (rustLines src) 0 1 off (by omega), Prod.mk.injEq]
    exact ⟨by omega, rfl⟩

/-- Witness for the C3 theorem: in `hi\nj` (bytes [104,105,10,106])
offset 3 maps to (2, 1) on both sides, and offset 7 falls back to
(3, 1). -/
theorem get_line_col_newline_only_spec_witness :
    get_line_col [104, 105, 10, 106] 3 = specLineCol [104, 105, 10, 106] 3 ∧
    get_line_col [104, 105, 10, 106] 7 =
      ((rustLines [104, 105, 10, 106]).length + 1, 1) :=
  ⟨get_line_col_newline_only_spec.1 [104, 105, 10, 106] 3 (by decide) (by decide),
   get_line_col_newline_only_spec.2 [104, 105, 10, 106] 7 (by decide)⟩
